import Mathlib

/-!
Verification of the nipy batch-statistics utility module
(`nipy.algorithms.statistics.utils`): strict binary-array validation
(`check_cast_bin8`), probability-to-z conversion (`z_score`), batched
matrix inversion (`multiple_fast_inv`) and batched Mahalanobis
evaluation (`multiple_mahalanobis`).  The utility module itself is not
part of the visible sources (only its test surface
`nipy/algorithms/statistics/tests/test_utils.py` is), so the
definitions below are modelled from the design specification of the
module and checked against the properties its tests pin down.
-/

/-- Error taxonomy of the specification: `DomainViolation` (input value
outside the mathematically valid domain), `ShapeMismatch` (paired array
dimensions inconsistent) and `SingularMatrix` (numerically
non-invertible matrix, carrying the offending batch index). -/
inductive Err where
  | DomainViolation : Err
  | ShapeMismatch : Err
  | SingularMatrix : ℕ → Err
  deriving DecidableEq

/-- A floating-point element as far as binary validation is concerned:
either the signed zero `-0.0` or an ordinary finite value, represented
exactly as a rational. -/
inductive FloatVal where
  | negZero : FloatVal
  | finite : ℚ → FloatVal
  deriving DecidableEq

/-- The numeric value a floating-point element represents (the signed
zero `-0.0` represents the value `0`). -/
def FloatVal.val : FloatVal → ℚ
  | .negZero => 0
  | .finite q => q

/-- Modelled from the spec: the input of the BinaryCastValidator, a
tagged numeric-array value (kind: integer-family or floating-family)
carrying its shape and its flat element data.  The concrete
`check_cast_bin8` implementation is missing from the visible sources. -/
inductive NumArray where
  | intArr : List ℕ → List ℤ → NumArray
  | floatArr : List ℕ → List FloatVal → NumArray
  deriving DecidableEq

/-- The shape of a tagged numeric array. -/
def NumArray.shape : NumArray → List ℕ
  | .intArr s _ => s
  | .floatArr s _ => s

/-- The rational values represented by the elements of a numeric
array, in order. -/
def NumArray.values : NumArray → List ℚ
  | .intArr _ data => data.map (fun (z : ℤ) => (z : ℚ))
  | .floatArr _ data => data.map FloatVal.val

/-- An unsigned 8-bit integer array: shape plus flat data.  The data
elements are naturals; `check_cast_bin8` only ever produces the values
0 and 1, which fit an unsigned byte exactly. -/
structure Bin8Array where
  shape : List ℕ
  data : List ℕ
  deriving DecidableEq

/-- Modelled from the spec: `check_cast_bin8` (BinaryCastValidator),
whose implementation is missing from the visible sources.  Given a
numeric array it returns an unsigned-byte array of identical shape
with element k equal to 1 if source element k represents the value 1
and 0 if it represents the value 0 (negative zero counts as 0); if any
element represents a value other than 0 or 1 the operation fails with
a `DomainViolation` error — it never clips or rounds. -/
def check_cast_bin8 (a : NumArray) : Except Err Bin8Array :=
  if a.values.all (fun v => decide (v = 0) || decide (v = 1)) then
    .ok ⟨a.shape, a.values.map (fun v => if v = 1 then 1 else 0)⟩
  else
    .error .DomainViolation

/-- Re-embed an unsigned-byte result array as an integer-family input
array (unsigned bytes belong to the integer family). -/
def Bin8Array.toNumArray (r : Bin8Array) : NumArray :=
  .intArr r.shape (r.data.map (fun (n : ℕ) => (n : ℤ)))

/-- C4: an array with any element whose value is not exactly 0 or 1
fails with a `DomainViolation` error; nothing is clipped, rounded or
truncated. -/
theorem check_cast_bin8_rejects_nonbinary (a : NumArray)
    (h : ∃ v ∈ a.values, v ≠ 0 ∧ v ≠ 1) :
    check_cast_bin8 a = .error .DomainViolation := by
  obtain ⟨v, hv, h0, h1⟩ := h
  unfold check_cast_bin8
  rw [if_neg]
  simp only [List.all_eq_true, not_forall]
  exact ⟨v, hv, by simp [h0, h1]⟩

/-- Witness for C4: the integer array `[0, 1, 2]` (shape `[3]`) is
rejected with a `DomainViolation`. -/
theorem check_cast_bin8_rejects_nonbinary_witness :
    check_cast_bin8 (NumArray.intArr [3] [0, 1, 2]) = .error .DomainViolation :=
  check_cast_bin8_rejects_nonbinary _ ⟨2, by decide, by decide, by decide⟩

/-- C5: an array all of whose elements represent 0 or 1 (negative zero
included) is cast to an unsigned-byte array of identical shape, with
element k equal to 1 where the source element represents 1 and 0 where
it represents 0. -/
theorem check_cast_bin8_accepts_binary (a : NumArray)
    (h : ∀ v ∈ a.values, v = 0 ∨ v = 1) :
    ∃ r : Bin8Array, check_cast_bin8 a = .ok r ∧
      r.shape = a.shape ∧
      r.data = a.values.map (fun v => if v = 1 then 1 else 0) ∧
      (∀ b ∈ r.data, b = 0 ∨ b = 1) ∧
      ∀ k (hk : k < r.data.length) (hk' : k < a.values.length),
        r.data.get ⟨k, hk⟩ = if a.values.get ⟨k, hk'⟩ = 1 then 1 else 0 := by
  have hall : a.values.all (fun v => decide (v = 0) || decide (v = 1)) = true := by
    simp only [List.all_eq_true]
    intro v hv
    rcases h v hv with h' | h' <;> simp [h']
  refine ⟨⟨a.shape, a.values.map (fun v => if v = 1 then 1 else 0)⟩,
    by simp [check_cast_bin8, hall], rfl, rfl, ?_, ?_⟩
  · intro b hb
    simp only [List.mem_map] at hb
    obtain ⟨v, _, rfl⟩ := hb
    by_cases hv1 : v = 1 <;> simp [hv1]
  · intro k hk hk'
    simp [List.get_map]

/-- Witness for C5: the floating array `[0, 1, 1, -0.0]` (shape `[4]`)
casts to the unsigned-byte array `[0, 1, 1, 0]`. -/
theorem check_cast_bin8_accepts_binary_witness :
    ∃ r : Bin8Array,
      check_cast_bin8 (NumArray.floatArr [4]
        [.finite 0, .finite 1, .finite 1, .negZero]) = .ok r ∧
      r.shape = [4] ∧
      r.data = (NumArray.floatArr [4]
        [.finite 0, .finite 1, .finite 1, .negZero]).values.map
          (fun v => if v = 1 then 1 else 0) ∧
      (∀ b ∈ r.data, b = 0 ∨ b = 1) ∧
      ∀ k (hk : k < r.data.length)
        (hk' : k < (NumArray.floatArr [4]
          [.finite 0, .finite 1, .finite 1, .negZero]).values.length),
        r.data.get ⟨k, hk⟩ =
          if (NumArray.floatArr [4]
            [.finite 0, .finite 1, .finite 1, .negZero]).values.get ⟨k, hk'⟩ = 1
          then 1 else 0 :=
  check_cast_bin8_accepts_binary _ (by decide)

/-- Casting the data of an unsigned-byte array back to the integer
family and reading its values yields the same naturals, as rationals. -/
lemma toNumArray_values (s : List ℕ) (d : List ℕ) :
    (Bin8Array.toNumArray ⟨s, d⟩).values = d.map (fun (n : ℕ) => (n : ℚ)) := by
  simp only [Bin8Array.toNumArray, NumArray.values, List.map_map]
  exact List.map_congr_left (fun n _ => by simp)

/-- Every element produced by the binary cast is 0 or 1. -/
lemma castBin_mem (l : List ℚ) :
    ∀ b ∈ l.map (fun v => if v = 1 then 1 else 0), b = 0 ∨ b = 1 := by
  intro b hb
  simp only [List.mem_map] at hb
  obtain ⟨v, _, rfl⟩ := hb
  by_cases hv1 : v = 1 <;> simp [hv1]

/-- Re-casting a list of 0/1 naturals (seen as rationals) is the
identity. -/
lemma castBin_of_binary (d : List ℕ) (hd : ∀ b ∈ d, b = 0 ∨ b = 1) :
    (d.map (fun (n : ℕ) => (n : ℚ))).map (fun v => if v = 1 then 1 else 0) = d := by
  induction d with
  | nil => rfl
  | cons n d ih =>
    have hn := hd n (by simp)
    have hrest : ∀ b ∈ d, b = 0 ∨ b = 1 := fun b hb => hd b (by simp [hb])
    rcases hn with rfl | rfl <;> simp [ih hrest]

/-- C10: `check_cast_bin8` is idempotent on accepted inputs: the
unsigned-byte array it returns is itself a valid binary array, and
re-validating it succeeds and returns an equal array. -/
theorem check_cast_bin8_idempotent (a : NumArray) (r : Bin8Array)
    (h : check_cast_bin8 a = .ok r) :
    check_cast_bin8 r.toNumArray = .ok r := by
  unfold check_cast_bin8 at h
  by_cases hall : a.values.all (fun v => decide (v = 0) || decide (v = 1)) = true
  · rw [if_pos hall] at h
    obtain rfl := Except.ok.inj h
    have hbin := castBin_mem a.values
    unfold check_cast_bin8
    rw [show (Bin8Array.toNumArray
        ⟨a.shape, a.values.map (fun v => if v = 1 then 1 else 0)⟩).values =
        (a.values.map (fun v => if v = 1 then 1 else 0)).map (fun (n : ℕ) => (n : ℚ)) from
      toNumArray_values _ _]
    rw [if_pos]
    · refine congrArg Except.ok ?_
      refine congrArg (Bin8Array.mk _) ?_
      exact castBin_of_binary _ hbin
    · simp only [List.all_eq_true, List.mem_map]
      rintro w ⟨b, ⟨v, hv, rfl⟩, rfl⟩
      by_cases hv1 : v = 1 <;> simp [hv1]
  · rw [if_neg hall] at h
    exact absurd h (by simp)

/-- Witness for C10: re-validating the output of `check_cast_bin8` on
the integer array `[0, 1, 1, 1]` returns that output unchanged. -/
theorem check_cast_bin8_idempotent_witness :
    check_cast_bin8 (Bin8Array.toNumArray ⟨[4], [0, 1, 1, 1]⟩) =
      .ok ⟨[4], [0, 1, 1, 1]⟩ :=
  check_cast_bin8_idempotent (NumArray.intArr [4] [0, 1, 1, 1]) _ rfl

/-! ### Batched linear algebra: `multiple_fast_inv` and `multiple_mahalanobis` -/

/-- The independently computed inverse of one square rational matrix
(the per-index reference implementation of the spec's design note):
`det⁻¹ • adjugate` when the determinant is nonzero, `none` for a
singular matrix. -/
def matInv {n : ℕ} (A : Matrix (Fin n) (Fin n) ℚ) :
    Option (Matrix (Fin n) (Fin n) ℚ) :=
  if A.det = 0 then none else some (A.det⁻¹ • A.adjugate)

/-- The first index of a singular member in a batch of square
matrices, if any. -/
def firstSingular {N n : ℕ} (X : Fin N → Matrix (Fin n) (Fin n) ℚ) :
    Option (Fin N) :=
  (List.finRange N).find? (fun i => decide ((X i).det = 0))

/-- Modelled from the spec: `multiple_fast_inv` (BatchMatrixInverter),
whose implementation is missing from the visible sources.  Given a
stack of N square matrices of shape (N, n, n), it returns the stack of
their inverses; a singular member makes the whole batch fail with a
`SingularMatrix` error carrying the offending batch index. -/
def multiple_fast_inv {N n : ℕ} (X : Fin N → Matrix (Fin n) (Fin n) ℚ) :
    Except Err (Fin N → Matrix (Fin n) (Fin n) ℚ) :=
  match firstSingular X with
  | some i => .error (.SingularMatrix i)
  | none => .ok (fun i => (X i).det⁻¹ • (X i).adjugate)

/-- A batch has no singular member exactly when `firstSingular` finds
nothing. -/
lemma firstSingular_eq_none_iff {N n : ℕ}
    (X : Fin N → Matrix (Fin n) (Fin n) ℚ) :
    firstSingular X = none ↔ ∀ i, (X i).det ≠ 0 := by
  unfold firstSingular
  rw [List.find?_eq_none]
  constructor
  · intro h i
    have := h i (List.mem_finRange i)
    simpa using this
  · intro h i _
    simpa using h i

/-- `firstSingular` really returns a singular index. -/
lemma firstSingular_eq_some {N n : ℕ}
    (X : Fin N → Matrix (Fin n) (Fin n) ℚ) (i : Fin N)
    (h : firstSingular X = some i) : (X i).det = 0 := by
  have := List.find?_some h
  simpa using this

/-- Over the field ℚ a right inverse of a matrix with nonzero
determinant is exactly the adjugate-based inverse. -/
lemma right_inv_eq_matInv {n : ℕ} {A B : Matrix (Fin n) (Fin n) ℚ}
    (hdet : A.det ≠ 0) (hB : A * B = 1) :
    A.det⁻¹ • A.adjugate = B := by
  have hleft : (A.det⁻¹ • A.adjugate) * A = 1 := by
    rw [Matrix.smul_mul, Matrix.adjugate_mul, smul_smul, inv_mul_cancel₀ hdet, one_smul]
  calc A.det⁻¹ • A.adjugate = (A.det⁻¹ • A.adjugate) * 1 := by rw [Matrix.mul_one]
    _ = (A.det⁻¹ • A.adjugate) * (A * B) := by rw [hB]
    _ = ((A.det⁻¹ • A.adjugate) * A) * B := by rw [Matrix.mul_assoc]
    _ = 1 * B := by rw [hleft]
    _ = B := Matrix.one_mul B

/-- C2: on a stack of non-singular matrices `multiple_fast_inv`
succeeds, and its element i is the independently computed matrix
inverse of `X i`: it equals the per-index reference `matInv (X i)` and
is a two-sided inverse of `X i`. -/
theorem multiple_fast_inv_eq_independent {N n : ℕ}
    (X : Fin N → Matrix (Fin n) (Fin n) ℚ) (h : ∀ i, (X i).det ≠ 0) :
    ∃ Y, multiple_fast_inv X = .ok Y ∧
      ∀ i, matInv (X i) = some (Y i) ∧ X i * Y i = 1 ∧ Y i * X i = 1 := by
  have hnone : firstSingular X = none := (firstSingular_eq_none_iff X).mpr h
  refine ⟨fun i => (X i).det⁻¹ • (X i).adjugate, ?_, ?_⟩
  · unfold multiple_fast_inv
    rw [hnone]
  · intro i
    refine ⟨by simp [matInv, h i], ?_, ?_⟩
    · rw [Matrix.mul_smul, Matrix.mul_adjugate, smul_smul,
        inv_mul_cancel₀ (h i), one_smul]
    · rw [Matrix.smul_mul, Matrix.adjugate_mul, smul_smul,
        inv_mul_cancel₀ (h i), one_smul]

/-- Witness for C2: a concrete stack of two non-singular 2×2 rational
matrices is batch-inverted, every member agreeing with its independent
inverse. -/
theorem multiple_fast_inv_eq_independent_witness :
    ∃ Y, multiple_fast_inv ![!![1, 0; 0, 1], !![2, 1; 1, 1]] = .ok Y ∧
      ∀ i, matInv (![!![1, 0; 0, 1], !![(2 : ℚ), 1; 1, 1]] i) = some (Y i) ∧
        ![!![1, 0; 0, 1], !![(2 : ℚ), 1; 1, 1]] i * Y i = 1 ∧
        Y i * ![!![1, 0; 0, 1], !![(2 : ℚ), 1; 1, 1]] i = 1 :=
  multiple_fast_inv_eq_independent _
    (by intro i; fin_cases i <;> norm_num [Matrix.det_fin_two_of])

/-- The vector argument of `multiple_mahalanobis`: K column vectors of
length n (a 2-D (n, K) array, stored column-major as K columns), or a
single 1-D vector of length n, which the test surface shows is
accepted and treated as a K = 1 batch. -/
inductive VecIn (n : ℕ) where
  | oneD (x : Fin n → ℚ)
  | twoD (K : ℕ) (X : Fin K → Fin n → ℚ)

/-- The matrix argument of `multiple_mahalanobis`: one shared (n, n)
matrix, or one (n, n) matrix per column as an (n, n, J) stack. -/
inductive MatIn (n : ℕ) where
  | shared (A : Matrix (Fin n) (Fin n) ℚ)
  | per (J : ℕ) (As : Fin J → Matrix (Fin n) (Fin n) ℚ)

/-- The number of column vectors carried by a vector input (a 1-D
vector counts as one column). -/
def VecIn.K {n : ℕ} : VecIn n → ℕ
  | .oneD _ => 1
  | .twoD K _ => K

/-- Column k of a vector input. -/
def VecIn.col {n : ℕ} : (v : VecIn n) → Fin v.K → Fin n → ℚ
  | .oneD x, _ => x
  | .twoD _ X, k => X k

/-- Solve `A y = x` for a non-singular matrix via the adjugate
(Cramer): `y = det(A)⁻¹ • (adjugate A *ᵥ x)`.  This is the fused
linear-solve path of the spec's design intent: the quadratic form is
computed from a solve, not from a materialized inverse. -/
def matSolve {n : ℕ} (A : Matrix (Fin n) (Fin n) ℚ) (x : Fin n → ℚ) :
    Fin n → ℚ :=
  A.det⁻¹ • A.adjugate.mulVec x

/-- Modelled from the spec: `multiple_mahalanobis`
(MahalanobisEvaluator), whose implementation is missing from the
visible sources.  Given K column vectors and either one shared matrix
or one matrix per column, it returns the length-K array whose entry k
is the quadratic form of vector k against the inverse of matrix k,
computed by a linear solve per column; the shared factorization is
computed once and reused.  A singular matrix fails the batch with a
`SingularMatrix` error carrying the offending index, and a per-column
stack whose count differs from the number of vectors fails with
`ShapeMismatch`. -/
def multiple_mahalanobis {n : ℕ} (v : VecIn n) (m : MatIn n) :
    Except Err (List ℚ) :=
  match m with
  | .shared A =>
      if A.det = 0 then .error (.SingularMatrix 0)
      else .ok (List.ofFn (fun k : Fin v.K =>
        Matrix.dotProduct (v.col k) (matSolve A (v.col k))))
  | .per J As =>
      if hJ : J = v.K then
        match firstSingular As with
        | some i => .error (.SingularMatrix i)
        | none => .ok (List.ofFn (fun k : Fin v.K =>
            Matrix.dotProduct (v.col k) (matSolve (As (Fin.cast hJ.symm k)) (v.col k))))
      else .error .ShapeMismatch

/-- For a non-singular matrix the solve-based quadratic form agrees
with the inverse-based one, for any right inverse of the matrix. -/
lemma dot_matSolve_eq {n : ℕ} {A B : Matrix (Fin n) (Fin n) ℚ}
    (hdet : A.det ≠ 0) (hB : A * B = 1) (x : Fin n → ℚ) :
    Matrix.dotProduct x (matSolve A x) = Matrix.dotProduct x (B.mulVec x) := by
  unfold matSolve
  rw [← Matrix.smul_mulVec_assoc, right_inv_eq_matInv hdet hB]

/-- C3: with K column vectors and either one shared non-singular
matrix or K non-singular per-column matrices, `multiple_mahalanobis`
returns the length-K array whose entry k is the scalar quadratic form
`x_k ⬝ (A_k⁻¹ *ᵥ x_k)` — stated against any right inverses `B` of the
matrices. -/
theorem multiple_mahalanobis_quadratic_form {n K : ℕ}
    (X : Fin K → Fin n → ℚ) (A : Matrix (Fin n) (Fin n) ℚ)
    (As : Fin K → Matrix (Fin n) (Fin n) ℚ)
    (B : Matrix (Fin n) (Fin n) ℚ) (Bs : Fin K → Matrix (Fin n) (Fin n) ℚ)
    (hdet : A.det ≠ 0) (hB : A * B = 1)
    (hdets : ∀ k, (As k).det ≠ 0) (hBs : ∀ k, As k * Bs k = 1) :
    multiple_mahalanobis (.twoD K X) (.shared A) =
      .ok (List.ofFn (fun k => Matrix.dotProduct (X k) (B.mulVec (X k)))) ∧
    multiple_mahalanobis (.twoD K X) (.per K As) =
      .ok (List.ofFn (fun k => Matrix.dotProduct (X k) ((Bs k).mulVec (X k)))) := by
  have hnone : firstSingular As = none := (firstSingular_eq_none_iff As).mpr hdets
  constructor
  · simp only [multiple_mahalanobis, VecIn.K, VecIn.col, hdet, if_false]
    refine congrArg Except.ok (congrArg List.ofFn (funext (fun k => ?_)))
    exact dot_matSolve_eq hdet hB _
  · simp only [multiple_mahalanobis, VecIn.K, VecIn.col, hnone, dite_eq_ite,
      if_pos rfl, Fin.cast_refl, id]
    refine congrArg Except.ok (congrArg List.ofFn (funext (fun k => ?_)))
    exact dot_matSolve_eq (hdets _) (hBs _) _

/-- Witness for C3: two concrete column vectors with a shared identity
matrix and with two concrete non-singular per-column matrices; the
returned entries are the per-column quadratic forms. -/
theorem multiple_mahalanobis_quadratic_form_witness :
    multiple_mahalanobis (.twoD 2 ![![1, 2], ![0, 1]])
        (.shared (!![1, 0; 0, 1] : Matrix (Fin 2) (Fin 2) ℚ)) =
      .ok (List.ofFn (fun k => Matrix.dotProduct (![![1, 2], ![0, 1]] k)
        ((!![1, 0; 0, 1] : Matrix (Fin 2) (Fin 2) ℚ).mulVec (![![1, 2], ![0, 1]] k)))) ∧
    multiple_mahalanobis (.twoD 2 ![![1, 2], ![0, 1]])
        (.per 2 ![!![1, 0; 0, 2], !![2, 1; 1, 1]]) =
      .ok (List.ofFn (fun k => Matrix.dotProduct (![![1, 2], ![0, 1]] k)
        ((![!![1, 0; 0, (1 : ℚ)/2], !![1, -1; -1, 2]] k).mulVec (![![1, 2], ![0, 1]] k)))) :=
  multiple_mahalanobis_quadratic_form ![![1, 2], ![0, 1]] !![1, 0; 0, 1]
    ![!![1, 0; 0, 2], !![2, 1; 1, 1]] !![1, 0; 0, 1]
    ![!![1, 0; 0, (1 : ℚ)/2], !![1, -1; -1, 2]]
    (by norm_num [Matrix.det_fin_two_of])
    (by ext i j; fin_cases i <;> fin_cases j <;>
      simp [Matrix.mul_apply, Fin.sum_univ_two, Matrix.one_apply])
    (by intro k; fin_cases k <;> norm_num [Matrix.det_fin_two_of])
    (by intro k; fin_cases k <;> (ext i j; fin_cases i <;> fin_cases j <;>
      simp [Matrix.mul_apply, Fin.sum_univ_two, Matrix.one_apply] <;> norm_num))

/-- C8: a 1-D vector of length n paired with a single non-singular
(n, n) matrix is accepted as a K = 1 batch: the call succeeds and
returns the singleton list holding the scalar `x ⬝ (A⁻¹ *ᵥ x)`
(stated against any right inverse `B` of `A`). -/
theorem multiple_mahalanobis_one_dim {n : ℕ}
    (x : Fin n → ℚ) (A B : Matrix (Fin n) (Fin n) ℚ)
    (hdet : A.det ≠ 0) (hB : A * B = 1) :
    multiple_mahalanobis (.oneD x) (.shared A) =
      .ok [Matrix.dotProduct x (B.mulVec x)] := by
  simp only [multiple_mahalanobis, VecIn.K, VecIn.col, hdet, if_false,
    List.ofFn_succ, List.ofFn_zero]
  rw [dot_matSolve_eq hdet hB]

/-- Witness for C8: the 1-D vector `[1, 2]` with the 2×2 identity
matrix yields the singleton quadratic form. -/
theorem multiple_mahalanobis_one_dim_witness :
    multiple_mahalanobis (.oneD ![1, 2])
        (.shared (!![1, 0; 0, 1] : Matrix (Fin 2) (Fin 2) ℚ)) =
      .ok [Matrix.dotProduct ![1, 2]
        ((!![1, 0; 0, 1] : Matrix (Fin 2) (Fin 2) ℚ).mulVec ![1, 2])] :=
  multiple_mahalanobis_one_dim ![1, 2] !![1, 0; 0, 1] !![1, 0; 0, 1]
    (by norm_num [Matrix.det_fin_two_of])
    (by ext i j; fin_cases i <;> fin_cases j <;>
      simp [Matrix.mul_apply, Fin.sum_univ_two, Matrix.one_apply])

/-- C9: per-index noninterference of `multiple_mahalanobis` with
per-column matrices: two inputs agreeing on vector column k and matrix
slice k produce (when both succeed) outputs agreeing at entry k,
whatever the other columns and matrices are. -/
theorem multiple_mahalanobis_noninterference {n K : ℕ}
    (X1 X2 : Fin K → Fin n → ℚ) (As1 As2 : Fin K → Matrix (Fin n) (Fin n) ℚ)
    (k : Fin K) (hX : X1 k = X2 k) (hA : As1 k = As2 k)
    (l1 l2 : List ℚ)
    (h1 : multiple_mahalanobis (.twoD K X1) (.per K As1) = .ok l1)
    (h2 : multiple_mahalanobis (.twoD K X2) (.per K As2) = .ok l2) :
    ∃ (hk1 : (k : ℕ) < l1.length) (hk2 : (k : ℕ) < l2.length),
      l1.get ⟨k, hk1⟩ = l2.get ⟨k, hk2⟩ := by
  simp only [multiple_mahalanobis, VecIn.K, VecIn.col, dite_eq_ite,
    if_pos rfl, Fin.cast_refl, id] at h1 h2
  rcases hfs1 : firstSingular As1 with _ | i1 <;> rw [hfs1] at h1
  · rcases hfs2 : firstSingular As2 with _ | i2 <;> rw [hfs2] at h2
    · obtain rfl := (Except.ok.inj h1).symm
      obtain rfl := (Except.ok.inj h2).symm
      refine ⟨by simp, by simp, ?_⟩
      rw [List.get_ofFn, List.get_ofFn]
      simp only [Fin.cast_mk]
      rw [hX, hA]
    · exact absurd h2 (by simp)
  · exact absurd h1 (by simp)

/-- A batch containing a singular member makes `firstSingular` return
some singular index. -/
lemma firstSingular_isSome {N n : ℕ}
    (X : Fin N → Matrix (Fin n) (Fin n) ℚ) (h : ∃ i, (X i).det = 0) :
    ∃ j, firstSingular X = some j ∧ (X j).det = 0 := by
  rcases hfs : firstSingular X with _ | j
  · obtain ⟨i, hi⟩ := h
    exact absurd hi ((firstSingular_eq_none_iff X).mp hfs i)
  · exact ⟨j, rfl, firstSingular_eq_some X j hfs⟩

/-- C7: a matrix stack (for batch inversion) or a per-column matrix
batch (for Mahalanobis evaluation) containing a singular member — over
the field ℚ, a member of rank < n is exactly one with determinant 0 —
fails with a `SingularMatrix` error identifying the offending batch
index; no result array is produced. -/
theorem singular_member_fails {N n m K : ℕ}
    (X : Fin N → Matrix (Fin n) (Fin n) ℚ) (hX : ∃ i, (X i).det = 0)
    (V : Fin K → Fin m → ℚ) (As : Fin K → Matrix (Fin m) (Fin m) ℚ)
    (hAs : ∃ k, (As k).det = 0) :
    (∃ j, (X j).det = 0 ∧
      multiple_fast_inv X = .error (.SingularMatrix (j : ℕ))) ∧
    (∃ j, (As j).det = 0 ∧
      multiple_mahalanobis (.twoD K V) (.per K As) =
        .error (.SingularMatrix (j : ℕ))) := by
  obtain ⟨j1, hfs1, hdet1⟩ := firstSingular_isSome X hX
  obtain ⟨j2, hfs2, hdet2⟩ := firstSingular_isSome As hAs
  constructor
  · refine ⟨j1, hdet1, ?_⟩
    unfold multiple_fast_inv
    rw [hfs1]
  · refine ⟨j2, hdet2, ?_⟩
    simp only [multiple_mahalanobis, VecIn.K, VecIn.col, dite_eq_ite,
      if_pos rfl, Fin.cast_refl, id, hfs2, eq_self_iff_true, if_true]

/-- Witness for C7: a stack holding the zero 2×2 matrix and a
Mahalanobis batch whose second matrix is singular both fail with a
`SingularMatrix` error naming a singular index. -/
theorem singular_member_fails_witness :
    (∃ j : Fin 1, ((![!![0, 0; 0, 0]] : Fin 1 → Matrix (Fin 2) (Fin 2) ℚ) j).det = 0 ∧
      multiple_fast_inv ![!![(0 : ℚ), 0; 0, 0]] = .error (.SingularMatrix (j : ℕ))) ∧
    (∃ j : Fin 2, ((![!![1, 0; 0, 1], !![1, 1; 1, 1]] :
        Fin 2 → Matrix (Fin 2) (Fin 2) ℚ) j).det = 0 ∧
      multiple_mahalanobis (.twoD 2 ![![1, 0], ![0, 1]])
        (.per 2 ![!![1, 0; 0, 1], !![(1 : ℚ), 1; 1, 1]]) =
        .error (.SingularMatrix (j : ℕ))) :=
  singular_member_fails ![!![(0 : ℚ), 0; 0, 0]]
    ⟨0, by norm_num [Matrix.det_fin_two_of]⟩
    ![![1, 0], ![0, 1]] ![!![1, 0; 0, 1], !![(1 : ℚ), 1; 1, 1]]
    ⟨1, by norm_num [Matrix.det_fin_two_of]⟩

/-- Witness for C9: two concrete K = 2 batches of 1×1 matrices that
agree at index 0 and differ everywhere else produce results agreeing
at entry 0. -/
theorem multiple_mahalanobis_noninterference_witness :
    ∃ (hk1 : (((0 : Fin 2)) : ℕ) < ([4, 25/2] : List ℚ).length)
      (hk2 : (((0 : Fin 2)) : ℕ) < ([4, 81/4] : List ℚ).length),
      ([4, 25/2] : List ℚ).get ⟨(0 : Fin 2), hk1⟩ =
        ([4, 81/4] : List ℚ).get ⟨(0 : Fin 2), hk2⟩ :=
  multiple_mahalanobis_noninterference
    ![![2], ![5]] ![![2], ![9]] ![!![1], !![2]] ![!![1], !![4]]
    0 rfl rfl [4, 25/2] [4, 81/4]
    (by norm_num [multiple_mahalanobis, VecIn.K, VecIn.col, firstSingular,
      List.finRange, List.find?, Matrix.det_fin_one, matSolve,
      Matrix.adjugate_fin_one, Matrix.mulVec, Matrix.dotProduct,
      Fin.sum_univ_one, List.ofFn_succ, List.ofFn_zero])
    (by norm_num [multiple_mahalanobis, VecIn.K, VecIn.col, firstSingular,
      List.finRange, List.find?, Matrix.det_fin_one, matSolve,
      Matrix.adjugate_fin_one, Matrix.mulVec, Matrix.dotProduct,
      Fin.sum_univ_one, List.ofFn_succ, List.ofFn_zero])

/-! ### Probability-to-z conversion: `z_score` -/

open MeasureTheory Set Filter

noncomputable def stdPDF (x : ℝ) : ℝ := ProbabilityTheory.gaussianPDFReal 0 1 x

lemma stdPDF_pos (x : ℝ) : 0 < stdPDF x :=
  ProbabilityTheory.gaussianPDFReal_pos 0 1 x one_ne_zero

lemma stdPDF_integrable : Integrable stdPDF :=
  ProbabilityTheory.integrable_gaussianPDFReal 0 1

lemma stdPDF_total : ∫ x, stdPDF x = 1 :=
  ProbabilityTheory.integral_gaussianPDFReal_eq_one 0 one_ne_zero

lemma stdPDF_le_one (x : ℝ) : stdPDF x ≤ 1 := by
  unfold stdPDF ProbabilityTheory.gaussianPDFReal
  have hexp : Real.exp (-(x - 0) ^ 2 / (2 * ((1 : NNReal) : ℝ))) ≤ 1 := by
    rw [Real.exp_le_one_iff]
    apply div_nonpos_of_nonpos_of_nonneg
    · exact neg_nonpos.2 (sq_nonneg _)
    · norm_num
  have hsqrt : (Real.sqrt (2 * Real.pi * ((1 : NNReal) : ℝ)))⁻¹ ≤ 1 := by
    apply inv_le_one_of_one_le₀
    rw [Real.one_le_sqrt]
    have hpi := Real.pi_gt_three
    push_cast
    nlinarith
  have h0 : (0 : ℝ) ≤ Real.exp (-(x - 0) ^ 2 / (2 * ((1 : NNReal) : ℝ))) :=
    (Real.exp_pos _).le
  calc (Real.sqrt (2 * Real.pi * ((1 : NNReal) : ℝ)))⁻¹ *
        Real.exp (-(x - 0) ^ 2 / (2 * ((1 : NNReal) : ℝ)))
      ≤ 1 * 1 := mul_le_mul hsqrt hexp h0 zero_le_one
    _ = 1 := one_mul 1

/-- The standard-normal upper-tail survival function P(Z > z). -/
noncomputable def norm_sf (z : ℝ) : ℝ := ∫ x in Ioi z, stdPDF x

lemma norm_sf_split {a b : ℝ} (hab : a ≤ b) :
    norm_sf a = (∫ x in Ioc a b, stdPDF x) + norm_sf b := by
  unfold norm_sf
  rw [← setIntegral_union (Ioc_disjoint_Ioi le_rfl) measurableSet_Ioi
      stdPDF_integrable.integrableOn stdPDF_integrable.integrableOn,
    Ioc_union_Ioi_eq_Ioi hab]

lemma integral_Ioc_stdPDF_pos {a b : ℝ} (hab : a < b) :
    0 < ∫ x in Ioc a b, stdPDF x := by
  rw [setIntegral_pos_iff_support_of_nonneg_ae
      (ae_of_all _ (fun x => (stdPDF_pos x).le)) stdPDF_integrable.integrableOn]
  have hsupp : Function.support stdPDF = univ := by
    ext x
    simp [Function.support, (stdPDF_pos x).ne']
  rw [hsupp, univ_inter, Real.volume_Ioc]
  exact ENNReal.ofReal_pos.2 (sub_pos.2 hab)

lemma norm_sf_strictAnti : StrictAnti norm_sf := by
  intro a b hab
  rw [norm_sf_split hab.le]
  linarith [integral_Ioc_stdPDF_pos hab]

lemma norm_sf_dist (a b : ℝ) : dist (norm_sf a) (norm_sf b) ≤ dist a b := by
  wlog h : a ≤ b with H
  · rw [dist_comm (norm_sf a), dist_comm a b]
    exact H b a (le_of_not_le h)
  have hsplit := norm_sf_split h
  have hnn : 0 ≤ ∫ x in Ioc a b, stdPDF x :=
    setIntegral_nonneg measurableSet_Ioc (fun x _ => (stdPDF_pos x).le)
  have hle : ∫ x in Ioc a b, stdPDF x ≤ b - a := by
    have hvol : volume (Ioc a b) < ⊤ := by
      rw [Real.volume_Ioc]
      exact ENNReal.ofReal_lt_top
    have hbound := norm_setIntegral_le_of_norm_le_const' (μ := volume) (s := Ioc a b)
      (f := stdPDF) (C := 1) hvol measurableSet_Ioc
      (fun x _ => by rw [Real.norm_eq_abs, abs_of_pos (stdPDF_pos x)]; exact stdPDF_le_one x)
    rw [Real.norm_eq_abs] at hbound
    calc ∫ x in Ioc a b, stdPDF x ≤ |∫ x in Ioc a b, stdPDF x| := le_abs_self _
      _ ≤ 1 * (volume (Ioc a b)).toReal := hbound
      _ = b - a := by
          rw [one_mul, Real.volume_Ioc, ENNReal.toReal_ofReal (sub_nonneg.2 h)]
  rw [Real.dist_eq, Real.dist_eq, hsplit, add_sub_cancel_right, abs_of_nonneg hnn]
  calc ∫ x in Ioc a b, stdPDF x ≤ b - a := hle
    _ ≤ |a - b| := by rw [abs_sub_comm]; exact le_abs_self _

lemma norm_sf_continuous : Continuous norm_sf :=
  (LipschitzWith.of_dist_le_mul (K := 1)
    (fun a b => by simpa using norm_sf_dist a b)).continuous

lemma integral_Iic_add_norm_sf (z : ℝ) :
    (∫ x in Iic z, stdPDF x) + norm_sf z = 1 := by
  unfold norm_sf
  rw [← setIntegral_union (Iic_disjoint_Ioi le_rfl) measurableSet_Ioi
      stdPDF_integrable.integrableOn stdPDF_integrable.integrableOn,
    Iic_union_Ioi, setIntegral_univ, stdPDF_total]

lemma tendsto_norm_sf_nat :
    Tendsto (fun k : ℕ => norm_sf k) atTop (nhds 0) := by
  have h := tendsto_setIntegral_of_antitone (μ := volume) (f := stdPDF)
    (s := fun k : ℕ => Ioi (k : ℝ))
    (fun _ => measurableSet_Ioi)
    (fun i j hij => Ioi_subset_Ioi (Nat.cast_le.2 hij))
    ⟨0, stdPDF_integrable.integrableOn⟩
  have hempty : ⋂ k : ℕ, Ioi ((k : ℕ) : ℝ) = ∅ := by
    ext x
    simp only [mem_iInter, mem_Ioi, mem_empty_iff_false, iff_false, not_forall, not_lt]
    obtain ⟨k, hk⟩ := exists_nat_gt x
    exact ⟨k, hk.le⟩
  rw [hempty] at h
  simpa [norm_sf] using h

lemma tendsto_norm_cdf_nat :
    Tendsto (fun k : ℕ => ∫ x in Iic (-(k : ℝ)), stdPDF x) atTop (nhds 0) := by
  have h := tendsto_setIntegral_of_antitone (μ := volume) (f := stdPDF)
    (s := fun k : ℕ => Iic (-(k : ℝ)))
    (fun _ => measurableSet_Iic)
    (fun i j hij => Iic_subset_Iic.2 (neg_le_neg (Nat.cast_le.2 hij)))
    ⟨0, stdPDF_integrable.integrableOn⟩
  have hempty : ⋂ k : ℕ, Iic (-((k : ℕ) : ℝ)) = ∅ := by
    ext x
    simp only [mem_iInter, mem_Iic, mem_empty_iff_false, iff_false, not_forall, not_le]
    obtain ⟨k, hk⟩ := exists_nat_gt (-x)
    exact ⟨k, by linarith⟩
  rw [hempty] at h
  simpa using h

/-- The survival function takes every value in the open unit interval:
there is a (necessarily unique) z with `norm_sf z = p`. -/
lemma norm_sf_exists (p : ℝ) (h0 : 0 < p) (h1 : p < 1) : ∃ z, norm_sf z = p := by
  obtain ⟨b, hb⟩ := (tendsto_norm_sf_nat.eventually_lt_const h0).exists
  obtain ⟨a, ha⟩ :=
    (tendsto_norm_cdf_nat.eventually_lt_const (by linarith : (0 : ℝ) < 1 - p)).exists
  have hsfa : p < norm_sf (-(a : ℝ)) := by
    have := integral_Iic_add_norm_sf (-(a : ℝ))
    linarith
  have hlt : (-(a : ℝ)) < (b : ℝ) := by
    by_contra hc
    push_neg at hc
    have := norm_sf_strictAnti.antitone hc
    linarith
  obtain ⟨z, _, hz⟩ := intermediate_value_Icc' hlt.le
    norm_sf_continuous.continuousOn ⟨hb.le, hsfa.le⟩
  exact ⟨z, hz⟩

/-- The output domain of the z-score conversion: a finite standard
normal deviate, or the infinities the boundary policy requires. -/
inductive ZVal where
  | negInf : ZVal
  | finite (z : ℝ) : ZVal
  | posInf : ZVal

/-- The survival function extended to the boundary outputs. -/
noncomputable def ZVal.sf : ZVal → ℝ
  | .negInf => 1
  | .finite z => norm_sf z
  | .posInf => 0

open Classical in
/-- The inverse survival function on (0, 1). -/
noncomputable def invSF (p : ℝ) : ℝ :=
  if h : ∃ z, norm_sf z = p then h.choose else 0

open Classical in
/-- Modelled from the spec: the elementwise core of `z_score`
(ZScoreConverter), whose implementation is missing from the visible
sources.  An upper-tail probability p in (0, 1) is mapped to the
unique real z with `norm_sf z = p`; p = 0 maps to +∞, p = 1 maps to
−∞, and p outside [0, 1] is a `DomainViolation`. -/
noncomputable def z_score1 (p : ℝ) : Except Err ZVal :=
  if p < 0 ∨ 1 < p then .error .DomainViolation
  else if p = 0 then .ok .posInf
  else if p = 1 then .ok .negInf
  else .ok (.finite (invSF p))

/-- Modelled from the spec: `z_score` maps an array of upper-tail
probabilities elementwise through the probability-to-z conversion,
failing with the first elementwise error. -/
noncomputable def z_score : List ℝ → Except Err (List ZVal)
  | [] => .ok []
  | p :: ps =>
      match z_score1 p, z_score ps with
      | .ok v, .ok vs => .ok (v :: vs)
      | .error e, _ => .error e
      | .ok _, .error e => .error e

lemma z_score1_interior (p : ℝ) (h0 : 0 < p) (h1 : p < 1) :
    z_score1 p = .ok (.finite (invSF p)) ∧ norm_sf (invSF p) = p := by
  constructor
  · unfold z_score1
    rw [if_neg (by push_neg; exact ⟨h0.le, h1.le⟩), if_neg h0.ne', if_neg h1.ne]
  · unfold invSF
    rw [dif_pos (norm_sf_exists p h0 h1)]
    exact (norm_sf_exists p h0 h1).choose_spec

/-- C1: for an array of probabilities all lying in the open interval
(0, 1), `z_score` succeeds and applying the standard-normal upper-tail
survival function elementwise to the result reproduces the input
exactly (hence in particular to at least 6 decimal places). -/
theorem z_score_round_trip (ps : List ℝ) (h : ∀ p ∈ ps, 0 < p ∧ p < 1) :
    ∃ zs : List ZVal, z_score ps = .ok zs ∧ zs.map ZVal.sf = ps := by
  induction ps with
  | nil => exact ⟨[], rfl, rfl⟩
  | cons p ps ih =>
    obtain ⟨h0, h1⟩ := h p (by simp)
    obtain ⟨zs, hzs, hmap⟩ := ih (fun q hq => h q (by simp [hq]))
    obtain ⟨hok, hsf⟩ := z_score1_interior p h0 h1
    refine ⟨.finite (invSF p) :: zs, ?_, ?_⟩
    · unfold z_score
      rw [hok, hzs]
    · simp [ZVal.sf, hmap, hsf]

/-- Witness for C1: the round trip through the singleton array
`[1/2]`. -/
theorem z_score_round_trip_witness :
    ∃ zs : List ZVal, z_score [(1 : ℝ)/2] = .ok zs ∧
      zs.map ZVal.sf = [(1 : ℝ)/2] :=
  z_score_round_trip [(1 : ℝ)/2]
    (by intro p hp; rw [List.mem_singleton] at hp; subst hp; norm_num)

lemma z_score1_ok_of_inrange (p : ℝ) (h : ¬(p < 0 ∨ 1 < p)) :
    ∃ v, z_score1 p = .ok v := by
  unfold z_score1
  rw [if_neg h]
  by_cases h0 : p = 0
  · rw [if_pos h0]
    exact ⟨_, rfl⟩
  · rw [if_neg h0]
    by_cases h1 : p = 1
    · rw [if_pos h1]
      exact ⟨_, rfl⟩
    · rw [if_neg h1]
      exact ⟨_, rfl⟩

lemma z_score_error_of_bad (ps : List ℝ) (h : ∃ p ∈ ps, p < 0 ∨ 1 < p) :
    z_score ps = .error .DomainViolation := by
  induction ps with
  | nil => simp at h
  | cons q ps ih =>
    by_cases hq : q < 0 ∨ 1 < q
    · have hq' : z_score1 q = .error .DomainViolation := by
        unfold z_score1
        rw [if_pos hq]
      unfold z_score
      rw [hq']
    · obtain ⟨p, hp, hbad⟩ := h
      rcases List.mem_cons.mp hp with rfl | hp'
      · exact absurd hbad hq
      · obtain ⟨v, hv⟩ := z_score1_ok_of_inrange q hq
        have hrest := ih ⟨p, hp', hbad⟩
        unfold z_score
        rw [hv, hrest]

/-- C6: the boundary policy of the z-score conversion: p = 0 maps to
+∞, p = 1 maps to −∞, and any element strictly outside [0, 1] fails
with a `DomainViolation` error, elementwise and at array level. -/
theorem z_score_boundary_policy :
    (z_score1 0 = .ok .posInf) ∧ (z_score1 1 = .ok .negInf) ∧
    (∀ p : ℝ, (p < 0 ∨ 1 < p) → z_score1 p = .error .DomainViolation) ∧
    (∀ ps : List ℝ, (∃ p ∈ ps, p < 0 ∨ 1 < p) →
      z_score ps = .error .DomainViolation) := by
  refine ⟨?_, ?_, ?_, z_score_error_of_bad⟩
  · unfold z_score1
    rw [if_neg (by norm_num), if_pos rfl]
  · unfold z_score1
    rw [if_neg (by norm_num), if_neg (by norm_num), if_pos rfl]
  · intro p hp
    unfold z_score1
    rw [if_pos hp]

/-- Witness for C6: the out-of-range probability 2 is rejected. -/
theorem z_score_boundary_policy_witness :
    z_score1 (2 : ℝ) = .error .DomainViolation :=
  z_score_boundary_policy.2.2.1 2 (Or.inr one_lt_two)
